import Mathlib

/-!
Shallow embedding of the sign-extraction pipeline of `sign-ocr-extraction`
(files `src/extraction/pdf_text_extraction.py` and
`src/extraction/color_based_extraction.py`), together with theorems settling
the specification claims about it.

Modelling conventions:
* Python floats are modelled as exact rationals (`ℚ`).  All quantities that
  reach the claims here (pixel coordinates, exact multiples, percentage
  arithmetic) are small integers or ratios thereof, for which IEEE-754
  double arithmetic in the source is exact or its rounding cannot affect
  the compared outcomes.
* Python `int()` truncation is modelled by `Int.floor`; every value it is
  applied to in the source is nonnegative, where the two agree.
* Python `round` (banker's rounding, round-half-to-even) is modelled
  exactly by `pyRound` below.
* The external OCR engine (`pytesseract`) and the raster operations feeding
  it are modelled as an oracle parameter; text post-processing, candidate
  filtering and selection are translated from the source.
-/

namespace SignOcr

/-! ### String helpers shared by both extraction paths -/

/-- Python's `text.split(c)` for a single-character separator, on the
character list of the string. -/
def splitOnChar (c : Char) : List Char → List (List Char)
  | [] => [[]]
  | a :: rest =>
    match splitOnChar c rest with
    | [] => [[]]
    | g :: gs => if a = c then [] :: g :: gs else (a :: g) :: gs

/-- Drop leading and trailing characters satisfying `p`. -/
def trimBoth (p : Char → Bool) (l : List Char) : List Char :=
  ((l.dropWhile p).reverse.dropWhile p).reverse

/-- Python's `text.strip(c)` for a single character: drop every leading and
trailing occurrence of `c`. -/
def stripChar (c : Char) (l : List Char) : List Char :=
  trimBoth (fun a => a = c) l

/-- Python's `text.strip()`: drop leading and trailing whitespace. -/
def pyStrip (s : String) : String :=
  String.mk (trimBoth (fun c => c.isWhitespace) s.data)

/-- Python's `sub in s` membership test for a single-character `sub`. -/
def pyContainsChar (s : String) (c : Char) : Bool :=
  s.data.contains c

/-- Python's `s.startswith(pre)`. -/
def pyStartsWith (s pre : String) : Bool :=
  pre.data.isPrefixOf s.data

/-- Pattern `SIGN_PATTERN = re.compile(r'^(\d{4}(?:\.\d+)?)$')` from
`pdf_text_extraction.py` line 21, as a full-string match: four digits
optionally followed by a period and at least one further digit. -/
def matchesSignPattern (s : String) : Bool :=
  match s.data with
  | d1 :: d2 :: d3 :: d4 :: rest =>
    d1.isDigit && d2.isDigit && d3.isDigit && d4.isDigit &&
    (match rest with
     | [] => true
     | '.' :: ds => !ds.isEmpty && ds.all (fun d => d.isDigit)
     | _ => false)
  | _ => false

example : matchesSignPattern "2001" = true := by decide
example : matchesSignPattern "2001.1" = true := by decide
example : matchesSignPattern "0000" = true := by decide
example : matchesSignPattern "20011" = false := by decide
example : matchesSignPattern "2001." = false := by decide

/-! ### Embedded-text extractor (`pdf_text_extraction.py`) -/

/-- Constant `HOTSPOT_EXPANSION = 0.3` (line 24). -/
def HOTSPOT_EXPANSION : ℚ := 3 / 10

/-- One text span of the structured text layer (`page.get_text("dict")`),
carrying its text and pixel bounding box `(x0, y0, x1, y1)`. -/
structure TextSpan where
  text : String
  x0 : ℚ
  y0 : ℚ
  x1 : ℚ
  y1 : ℚ
deriving DecidableEq

structure TextLine where
  spans : List TextSpan
deriving DecidableEq

/-- A block of the structured layer; `btype = 0` marks a text block. -/
structure TextBlock where
  btype : ℤ
  lines : List TextLine
deriving DecidableEq

/-- One block of the plain block-level extraction (`page.get_text("blocks")`):
`(x0, y0, x1, y1, text, ...)`. -/
structure RawBlock where
  x0 : ℚ
  y0 : ℚ
  x1 : ℚ
  y1 : ℚ
  text : String
deriving DecidableEq

/-- A page's text layer together with its dimensions, the inputs read by
`extract_signs_from_page`. -/
structure PageTextLayer where
  width : ℚ
  height : ℚ
  blocks : List TextBlock
  rawBlocks : List RawBlock
deriving DecidableEq

/-- The `SignHotspot` dataclass (lines 26–41). -/
structure SignHotspot where
  sign_number : String
  page : ℕ
  text_x : ℚ
  text_y : ℚ
  text_width : ℚ
  text_height : ℚ
  hotspot_x_percentage : ℚ
  hotspot_y_percentage : ℚ
  hotspot_width_percentage : ℚ
  hotspot_height_percentage : ℚ
deriving DecidableEq

/-- The hotspot computation shared by both walks of
`extract_signs_from_page` (lines 143–155 and 194–207): expand the text box
by `HOTSPOT_EXPANSION` on every side, then convert to percentages of the
page dimensions.  Returns `(x%, y%, width%, height%)`. -/
def hotspotOf (pw ph tx ty tw th : ℚ) : ℚ × ℚ × ℚ × ℚ :=
  let expansion_x := tw * HOTSPOT_EXPANSION
  let expansion_y := th * HOTSPOT_EXPANSION
  ((tx - expansion_x) / pw * 100,
   (ty - expansion_y) / ph * 100,
   (tw + 2 * expansion_x) / pw * 100,
   (th + 2 * expansion_y) / ph * 100)

/-- Processing of one span in the structured walk (lines 127–170): trim,
match against `SIGN_PATTERN`, and on success build the `SignHotspot`. -/
def spanSign (pw ph : ℚ) (pageNum : ℕ) (sp : TextSpan) : Option SignHotspot :=
  let text := pyStrip sp.text
  if matchesSignPattern text then
    let tx := sp.x0
    let ty := sp.y0
    let tw := sp.x1 - sp.x0
    let th := sp.y1 - sp.y0
    let pcts := hotspotOf pw ph tx ty tw th
    some ⟨text, pageNum, tx, ty, tw, th, pcts.1, pcts.2.1, pcts.2.2.1, pcts.2.2.2⟩
  else none

/-- The structured walk of `extract_signs_from_page` (lines 124–173):
blocks of type 0 → lines → spans, collecting every matching span in
iteration order. -/
def structuredSigns (page : PageTextLayer) (pageNum : ℕ) : List SignHotspot :=
  (page.blocks.filter (fun b => decide (b.btype = 0))).flatMap (fun b =>
    b.lines.flatMap (fun l =>
      l.spans.filterMap (spanSign page.width page.height pageNum)))

/-- One line of the fallback block walk (lines 181–222): trim the line,
match it, and keep it only when no already-collected sign (structured or
earlier fallback) carries the same `sign_number`.  `nlines` is the number
of lines of the enclosing block, used for the per-line height estimate
`(y1 - y0) / len(lines)`. -/
def fallbackLineStep (pw ph : ℚ) (pageNum : ℕ) (rb : RawBlock) (nlines : ℕ)
    (signs : List SignHotspot) (line : String) : List SignHotspot :=
  let line := pyStrip line
  if matchesSignPattern line &&
      !(signs.any (fun s => s.sign_number == line)) then
    let tw := rb.x1 - rb.x0
    let th := (rb.y1 - rb.y0) / (nlines : ℚ)
    let pcts := hotspotOf pw ph rb.x0 rb.y0 tw th
    signs ++ [⟨line, pageNum, rb.x0, rb.y0, tw, th,
               pcts.1, pcts.2.1, pcts.2.2.1, pcts.2.2.2⟩]
  else signs

/-- One block of the fallback walk (lines 176–222): split the block's
stripped text on newlines and process each line in order. -/
def fallbackBlockStep (pw ph : ℚ) (pageNum : ℕ)
    (signs : List SignHotspot) (rb : RawBlock) : List SignHotspot :=
  let lines := (splitOnChar '\n' (pyStrip rb.text).data).map (fun cs => String.mk cs)
  lines.foldl (fallbackLineStep pw ph pageNum rb lines.length) signs

/-- Function `PDFTextExtractor.extract_signs_from_page` (lines 112–224): structured
walk first, then the fallback block walk over the same page. -/
def extract_signs_from_page (page : PageTextLayer) (pageNum : ℕ) : List SignHotspot :=
  page.rawBlocks.foldl (fallbackBlockStep page.width page.height pageNum)
    (structuredSigns page pageNum)

/-! ### Color-based pipeline (`color_based_extraction.py`) -/

/-- Constant `STANDARD_SIGN_HEIGHT_PIXELS = 40` (line 49). -/
def STANDARD_SIGN_HEIGHT_PIXELS : ℤ := 40

/-- A pixel-space rectangle `(x, y, w, h)` as produced by
`cv2.boundingRect` and consumed by the splitter and the OCR extractor. -/
structure PixBox where
  x : ℤ
  y : ℤ
  w : ℤ
  h : ℤ
deriving DecidableEq

/-- Python's built-in `round` on a rational: round half to even. -/
def pyRound (q : ℚ) : ℤ :=
  if q - ⌊q⌋ < 1 / 2 then ⌊q⌋
  else if 1 / 2 < q - ⌊q⌋ then ⌊q⌋ + 1
  else if ⌊q⌋ % 2 = 0 then ⌊q⌋ else ⌊q⌋ + 1

example : pyRound (3 / 2) = 2 := by norm_num [pyRound]
example : pyRound (5 / 2) = 2 := by norm_num [pyRound]
example : pyRound (49 / 20) = 2 := by norm_num [pyRound]
example : pyRound 3 = 3 := by norm_num [pyRound]

/-- Function `ColorBasedSignExtractor.detect_stacked_boxes` (lines 185–207).
Float division `h / stack_count` is modelled as exact rational division
and `int(...)` truncation as `Int.floor` (all values it is applied to in
the source are nonnegative). -/
def detect_stacked_boxes (box : PixBox)
    (standard_height : ℤ := STANDARD_SIGN_HEIGHT_PIXELS) : List PixBox :=
  if (box.h : ℚ) > (standard_height : ℚ) * (3 / 2) then
    let stack_count := pyRound ((box.h : ℚ) / (standard_height : ℚ))
    if stack_count > 1 then
      let individual_height : ℚ := (box.h : ℚ) / (stack_count : ℚ)
      (List.range stack_count.toNat).map (fun (i : ℕ) =>
        ⟨box.x, ⌊(box.y : ℚ) + (i : ℚ) * individual_height⌋,
         box.w, ⌊individual_height⌋⟩)
    else [box]
  else [box]

example : detect_stacked_boxes ⟨5, 7, 30, 60⟩ 40 = [⟨5, 7, 30, 60⟩] := by
  norm_num [detect_stacked_boxes]

/-! ### OCR ensemble extractor (`extract_sign_number`, lines 209–291) -/

/-- Outcome of one engine invocation for one preprocessing/mode
combination: either the engine throws, or it yields the recognized raw
text together with the per-character confidence values the engine reports
(already restricted, as in the source, to the entries different from
`'-1'`). -/
inductive OcrOutcome where
  | err : OcrOutcome
  | ok : String → List ℚ → OcrOutcome
deriving DecidableEq

/-- One surviving OCR candidate, the dictionary appended to `results`
(lines 271–276). -/
structure OcrCandidate where
  text : String
  confidence : ℚ
  psm : ℕ
  preprocess : String
deriving DecidableEq

/-- The eight (preprocessing × layout-mode) combinations in iteration
order: `preprocessed_images = [otsu, otsu_inv, clahe, clahe_inv]` (lines
245–250) crossed with `psm_modes = [8, 11]` (line 252), outer loop over
images. -/
def ocrCombos : List (String × ℕ) :=
  [("otsu", 8), ("otsu", 11), ("otsu_inv", 8), ("otsu_inv", 11),
   ("clahe", 8), ("clahe", 11), ("clahe_inv", 8), ("clahe_inv", 11)]

/-- Function `_clean_sign_number` (lines 293–305): strip leading/trailing periods;
keep the result when it contains a digit and splits on `'.'` into at most
two parts, otherwise return the empty string. -/
def cleanSignNumber (text : String) : String :=
  let t := String.mk (stripChar '.' text.data)
  if t.data.any (fun c => c.isDigit) then
    if (splitOnChar '.' t.data).length ≤ 2 then t else ""
  else ""

example : cleanSignNumber ".2001.1." = "2001.1" := by decide
example : cleanSignNumber "2.0.1" = "" := by decide
example : cleanSignNumber "..." = "" := by decide

/-- Expression `sum(confidences) / len(confidences) if confidences else 0`
(line 268). -/
def avgConf (confs : List ℚ) : ℚ :=
  if confs = [] then 0 else confs.sum / (confs.length : ℚ)

/-- The body of the per-combination loop of `extract_sign_number` (lines
254–280): an engine failure is caught and skipped; otherwise the text is
stripped, cleaned and validated, the averaged confidence computed, and a
candidate is produced only when that average exceeds 30. -/
def comboResult (engine : String × ℕ → OcrOutcome) (p : String × ℕ) :
    Option OcrCandidate :=
  match engine p with
  | .err => none
  | .ok raw confs =>
    let text := pyStrip raw
    if text ≠ "" then
      let cleaned := cleanSignNumber text
      if cleaned ≠ "" ∧ 3 ≤ cleaned.length then
        if 30 < avgConf confs then
          some ⟨cleaned, avgConf confs, p.2, p.1⟩
        else none
      else none
    else none

/-- Python's `max(results, key=lambda x: (x['confidence'], len(x['text'])))`
keeps the first element whose key is strictly greater than the running
maximum; `betterThan a b` is that strict lexicographic comparison. -/
def betterThan (a b : OcrCandidate) : Bool :=
  decide (b.confidence < a.confidence ∨
    (a.confidence = b.confidence ∧ b.text.length < a.text.length))

/-- The final selection of `extract_sign_number` (lines 283–291): `none`
on an empty result list, otherwise the `max` by `(confidence, length)`. -/
def pickBest : List OcrCandidate → Option OcrCandidate
  | [] => none
  | c :: cs => some (cs.foldl (fun best x => if betterThan x best then x else best) c)

/-- Constant `vertical_padding = 50` (line 215). -/
def vertical_padding : ℤ := 50

/-- Constant `horizontal_padding = 20` (line 216). -/
def horizontal_padding : ℤ := 20

/-- The crop bounds computed by `extract_sign_number` (lines 218–221):
`(x_start, y_start, x_end, y_end)` with `x_start = max(0, x - 20)`,
`y_start = max(0, y - 50)`, `x_end = min(width, x + w + 20)`,
`y_end = min(height, y + h + 10)`. -/
def roiBounds (imgW imgH : ℤ) (b : PixBox) : ℤ × ℤ × ℤ × ℤ :=
  (max 0 (b.x - horizontal_padding),
   max 0 (b.y - vertical_padding),
   min imgW (b.x + b.w + horizontal_padding),
   min imgH (b.y + b.h + 10))

/-- Function `extract_sign_number` (lines 209–291) with the raster work and the OCR
engine abstracted as an oracle from the crop bounds and the combination to
an `OcrOutcome`. -/
def extract_sign_number (imgW imgH : ℤ)
    (engine : ℤ × ℤ × ℤ × ℤ → String × ℕ → OcrOutcome)
    (b : PixBox) : Option OcrCandidate :=
  let roi := roiBounds imgW imgH b
  pickBest (ocrCombos.filterMap (comboResult (engine roi)))

/-- The `SignDetection` dataclass (lines 74–94). -/
structure SignDetection where
  sign_number : String
  x_percentage : ℚ
  y_percentage : ℚ
  width_percentage : ℚ
  height_percentage : ℚ
  confidence : ℚ
deriving DecidableEq

/-- The per-box part of `process_image` (lines 315–339): run the OCR
extractor on a box and, on success, build the detection from the box
center and the full box dimensions as percentages of the image size. -/
def boxDetection (imgW imgH : ℤ)
    (engine : ℤ × ℤ × ℤ × ℤ → String × ℕ → OcrOutcome)
    (b : PixBox) : Option SignDetection :=
  match extract_sign_number imgW imgH engine b with
  | none => none
  | some r =>
    let x_center : ℚ := (b.x : ℚ) + (b.w : ℚ) / 2
    let y_center : ℚ := (b.y : ℚ) + (b.h : ℚ) / 2
    some ⟨r.text,
          x_center / (imgW : ℚ) * 100,
          y_center / (imgH : ℚ) * 100,
          (b.w : ℚ) / (imgW : ℚ) * 100,
          (b.h : ℚ) / (imgH : ℚ) * 100,
          r.confidence⟩

/-- Function `process_image` (lines 307–339) from the detected box list onward:
each box is OCR'd independently and boxes without a result are skipped. -/
def process_image (imgW imgH : ℤ)
    (engine : ℤ × ℤ × ℤ × ℤ → String × ℕ → OcrOutcome)
    (boxes : List PixBox) : List SignDetection :=
  boxes.filterMap (boxDetection imgW imgH engine)

/-! ### Proximity grouper (`group_nearby_signs`, `pdf_text_extraction.py`
lines 226–274)

The grouper operates on the per-page `signs` dictionaries produced by
`SignHotspot.to_dict`; it reads only `sign_number` and the `hotspot_bbox`
`x_percentage`/`y_percentage` entries and writes only the `group` and
`group_size` keys.  `PageSign` mirrors that dictionary (the nested
`text_bbox` is flattened; values carried through unchanged). -/

structure PageSign where
  sign_number : String
  text_bbox_x : ℚ
  text_bbox_y : ℚ
  text_bbox_w : ℚ
  text_bbox_h : ℚ
  x_percentage : ℚ
  y_percentage : ℚ
  width_percentage : ℚ
  height_percentage : ℚ
  confidence : String
  group : Option String := none
  group_size : Option ℕ := none
deriving DecidableEq

/-- The fields of a page sign that the grouper reads: label text and the
percentage position of its hotspot. -/
structure GCore where
  num : String
  gx : ℚ
  gy : ℚ
deriving DecidableEq

def core (s : PageSign) : GCore :=
  ⟨s.sign_number, s.x_percentage, s.y_percentage⟩

/-- Expression `sign1["sign_number"].split('.')[0]` (line 247). -/
def baseOf (s : String) : String :=
  String.mk ((splitOnChar '.' s.data).headD [])

/-- The proximity test of lines 256–263: aligned along one axis and not
too far along the other. -/
def closePair (t : ℚ) (c1 c2 : GCore) : Bool :=
  let dx := |c1.gx - c2.gx|
  let dy := |c1.gy - c2.gy|
  decide ((dx < t ∧ dy < t * 3) ∨ (dy < t ∧ dx < t * 3))

/-- The inner loop of lines 251–265, for a seed at index `i` with core
`c1`: the indices `j` of the still-unused signs of the same series that
pass the proximity test.  (`used` already contains `i`; the additions the
source makes to `used` during the inner loop cannot affect later
membership tests because each index is examined once.) -/
def seedJoined (t : ℚ) (cores : List GCore) (used : List ℕ) (i : ℕ)
    (c1 : GCore) : List ℕ :=
  if pyContainsChar c1.num '.' then
    (List.range cores.length).filter (fun j =>
      decide (j ≠ i) && decide (j ∉ used) &&
      (match cores.get? j with
       | some c2 => pyStartsWith c2.num (baseOf c1.num ++ ".") && closePair t c1 c2
       | none => false))
  else []

/-- Assignment `sign["group"] = group_label; sign["group_size"] = len(group)`
(lines 270–272) on one sign. -/
def setGroup (lbl : String) (sz : ℕ) (s : PageSign) : PageSign :=
  { s with group := some lbl, group_size := some sz }

/-- Apply `setGroup` to the signs at the positions in `idxs`, `j` being
the position of the head of the remaining list. -/
def annotateFrom (lbl : String) (sz : ℕ) (idxs : List ℕ) :
    ℕ → List PageSign → List PageSign
  | _, [] => []
  | j, s :: rest =>
    (if j ∈ idxs then setGroup lbl sz s else s) ::
      annotateFrom lbl sz idxs (j + 1) rest

def annotateAll (lbl : String) (sz : ℕ) (idxs : List ℕ)
    (signs : List PageSign) : List PageSign :=
  annotateFrom lbl sz idxs 0 signs

/-- The group label of line 269:
`f"{base_number} series ({len(group)} signs)"`. -/
def groupLabel (base : String) (sz : ℕ) : String :=
  base ++ " series (" ++ toString sz ++ " signs)"

/-- One iteration of the outer loop of `group_nearby_signs` (lines
239–272), threading the (possibly annotated) sign list and the `used`
index set.  The source reads the seed's fields from the current list;
since annotation never changes the fields the matching reads, those reads
are taken through `core`. -/
def groupStep (t : ℚ) (st : List PageSign × List ℕ) (i : ℕ) :
    List PageSign × List ℕ :=
  let signs := st.1
  let used := st.2
  if i ∈ used then st
  else
    match signs.get? i with
    | none => st
    | some s1 =>
      let used1 := i :: used
      let base := baseOf s1.sign_number
      let joined := seedJoined t (signs.map core) used1 i (core s1)
      let group := i :: joined
      let used2 := joined ++ used1
      if group.length > 1 then
        (annotateAll (groupLabel base group.length) group.length group signs,
         used2)
      else (signs, used2)

/-- Function `group_nearby_signs` restricted to one page (lines 229–273): pages
with fewer than two signs are skipped; otherwise every index is visited
in order as a potential seed. -/
def group_nearby_page (t : ℚ) (signs : List PageSign) : List PageSign :=
  if signs.length < 2 then signs
  else ((List.range signs.length).foldl (groupStep t) (signs, [])).1

/-- Function `group_nearby_signs` over all pages of a result set, with its default
`distance_threshold = 2.0`. -/
def group_nearby_signs (pages : List (List PageSign)) (t : ℚ := 2) :
    List (List PageSign) :=
  pages.map (group_nearby_page t)

/-! ### Analysis helpers for the grouper

`groupStep` threads the annotated sign list through the fold, but all of
its decisions depend only on the `core` projection, which annotation never
changes.  `coreStep` replays the same fold on cores alone, recording the
groups of size ≥ 2; `applyGroups` then performs the recorded annotations.
These are used to prove `group_nearby_page` idempotent. -/

/-- A recorded annotation: group label, group size, member indices. -/
structure GroupRec where
  lbl : String
  sz : ℕ
  idxs : List ℕ
deriving DecidableEq

/-- The decisions of `groupStep`, replayed on the `core` projection only:
accumulates the recorded size-≥ 2 groups and the used index set. -/
def coreStep (t : ℚ) (cores : List GCore) (st : List GroupRec × List ℕ)
    (i : ℕ) : List GroupRec × List ℕ :=
  let G := st.1
  let used := st.2
  if i ∈ used then st
  else
    match cores.get? i with
    | none => st
    | some c1 =>
      let used1 := i :: used
      let base := baseOf c1.num
      let joined := seedJoined t cores used1 i c1
      let group := i :: joined
      let used2 := joined ++ used1
      if group.length > 1 then
        (G ++ [⟨groupLabel base group.length, group.length, group⟩], used2)
      else (G, used2)

/-- Apply a list of recorded annotations in order. -/
def applyGroups (G : List GroupRec) (signs : List PageSign) : List PageSign :=
  G.foldl (fun sg g => annotateAll g.lbl g.sz g.idxs sg) signs

/-- The effect of `applyGroups` at a single position `j`. -/
def wApply (G : List GroupRec) (j : ℕ) (s : PageSign) : PageSign :=
  G.foldl (fun s g => if j ∈ g.idxs then setGroup g.lbl g.sz s else s) s

/-- The last recorded annotation covering position `j`, if any. -/
def lastWrite (G : List GroupRec) (j : ℕ) : Option (String × ℕ) :=
  G.foldl (fun acc g => if j ∈ g.idxs then some (g.lbl, g.sz) else acc) none

/-! ### Concrete demonstration inputs used by witnesses and
counterexamples -/

/-- A page whose embedded text layer carries the single run `"0000"`. -/
def pageZeroRun : PageTextLayer :=
  ⟨100, 100, [⟨0, [⟨[⟨"0000", 0, 0, 10, 10⟩]⟩]⟩], []⟩

/-- A page whose embedded text layer carries the single run `"2001"` with
a degenerate (all-zero) bounding box. -/
def pageSimpleRun : PageTextLayer :=
  ⟨100, 100, [⟨0, [⟨[⟨"2001", 0, 0, 0, 0⟩]⟩]⟩], []⟩

/-- A page with a matching run `"1234"` at the very left edge of the
page: the 30 % hotspot expansion pushes the hotspot x beyond 0. -/
def pageEdgeRun : PageTextLayer :=
  ⟨100, 100, [⟨0, [⟨[⟨"1234", 0, 0, 10, 10⟩]⟩]⟩], []⟩

/-- A page with an empty structured layer whose block-level text holds the
same label on two lines. -/
def pageDupBlock : PageTextLayer :=
  ⟨100, 100, [], [⟨0, 0, 50, 20, "1234\n1234"⟩]⟩

/-- An OCR oracle that throws on every combination. -/
def engineAllErr : ℤ × ℤ × ℤ × ℤ → String × ℕ → OcrOutcome :=
  fun _ _ => .err

/-- An OCR oracle that reads `"2001"` with confidence 60 everywhere. -/
def engineConst : ℤ × ℤ × ℤ × ℤ → String × ℕ → OcrOutcome :=
  fun _ _ => .ok "2001" [60]

/-- The two series labels of end-to-end scenario C:
`"2001.1"` at (10 %, 20 %) and `"2001.2"` at (10 %, 21.5 %). -/
def seriesSignA : PageSign :=
  ⟨"2001.1", 0, 0, 0, 0, 10, 20, 1, 1, "embedded", none, none⟩

def seriesSignB : PageSign :=
  ⟨"2001.2", 0, 0, 0, 0, 10, 43 / 2, 1, 1, "embedded", none, none⟩

/-- A series label far away from the two above: it seeds a group of size
one and must therefore be left unannotated by the grouper. -/
def loneSign : PageSign :=
  ⟨"3005.1", 0, 0, 0, 0, 80, 80, 1, 1, "embedded", none, none⟩

/-! ## General helper lemmas -/

/-- Predicate preservation through a left fold. -/
theorem foldl_preserves {α β : Type} (Q : β → Prop) (f : β → α → β)
    (hf : ∀ acc a, Q acc → Q (f acc a)) :
    ∀ (l : List α) (acc : β), Q acc → Q (l.foldl f acc) := by
  intro l
  induction l with
  | nil => exact fun acc h => h
  | cons a l ih => exact fun acc h => ih _ (hf _ _ h)

/-! ## C1: every emitted label matches the sign pattern -/

theorem spanSign_pattern {pw ph : ℚ} {pn : ℕ} {sp : TextSpan} {s : SignHotspot}
    (h : spanSign pw ph pn sp = some s) :
    matchesSignPattern s.sign_number = true := by
  dsimp only [spanSign] at h
  split at h
  · cases h
    assumption
  · cases h

theorem structuredSigns_pattern (page : PageTextLayer) (pn : ℕ) :
    ∀ s ∈ structuredSigns page pn, matchesSignPattern s.sign_number = true := by
  intro s hs
  simp only [structuredSigns, List.mem_flatMap, List.mem_filterMap] at hs
  obtain ⟨b, -, l, -, sp, -, hsp⟩ := hs
  exact spanSign_pattern hsp

theorem fallbackLineStep_pattern {pw ph : ℚ} {pn n : ℕ} {rb : RawBlock}
    {signs : List SignHotspot} {line : String}
    (h : ∀ s ∈ signs, matchesSignPattern s.sign_number = true) :
    ∀ s ∈ fallbackLineStep pw ph pn rb n signs line,
      matchesSignPattern s.sign_number = true := by
  intro s hs
  dsimp only [fallbackLineStep] at hs
  split at hs
  · rcases List.mem_append.mp hs with h1 | h2
    · exact h s h1
    · rename_i hcond
      rcases List.mem_singleton.mp h2 with rfl
      simp only [Bool.and_eq_true] at hcond
      exact hcond.1
  · exact h s hs

theorem fallbackBlockStep_pattern {pw ph : ℚ} {pn : ℕ}
    {signs : List SignHotspot} {rb : RawBlock}
    (h : ∀ s ∈ signs, matchesSignPattern s.sign_number = true) :
    ∀ s ∈ fallbackBlockStep pw ph pn signs rb,
      matchesSignPattern s.sign_number = true := by
  dsimp only [fallbackBlockStep]
  exact foldl_preserves
    (fun (acc : List SignHotspot) =>
      ∀ s ∈ acc, matchesSignPattern s.sign_number = true) _
    (fun acc a hq => fallbackLineStep_pattern hq) _ _ h

/-- C1: (amended): every detection emitted by the embedded-text
extractor has a `sign_number` matching `^\d{4}(\.\d+)?$`.  The claim's
second half is false — the extractor has no `"0000"` exclusion; see
`c1_counterexample`. -/
theorem c1_extracted_labels_match_pattern (page : PageTextLayer) (pageNum : ℕ) :
    ∀ s ∈ extract_signs_from_page page pageNum,
      matchesSignPattern s.sign_number = true := by
  unfold extract_signs_from_page
  exact foldl_preserves
    (fun (acc : List SignHotspot) =>
      ∀ s ∈ acc, matchesSignPattern s.sign_number = true) _
    (fun acc a hq => fallbackBlockStep_pattern hq) _ _
    (structuredSigns_pattern page pageNum)

/-- C1: counterexample: on a page whose text layer carries the run
`"0000"`, the extractor emits a detection whose label text is the literal
`"0000"` — the claimed exclusion does not exist in
`pdf_text_extraction.py`. -/
theorem c1_counterexample :
    (extract_signs_from_page pageZeroRun 1).map SignHotspot.sign_number
      = ["0000"] := by decide

/-- C1: witness: the pattern theorem applied to a concrete page. -/
theorem c1_witness :
    (extract_signs_from_page pageSimpleRun 1).all
      (fun s => matchesSignPattern s.sign_number) = true := by
  rw [List.all_eq_true]
  exact fun s hs => c1_extracted_labels_match_pattern pageSimpleRun 1 s hs

/-! ## C2: bbox percentages and the interval [0, 100] -/

theorem pct_bounds {v W : ℚ} (h0 : 0 ≤ v) (h1 : v ≤ W) (hW : 0 < W) :
    0 ≤ v / W * 100 ∧ v / W * 100 ≤ 100 := by
  constructor
  · positivity
  · have hdiv : v / W ≤ 1 := (div_le_one hW).mpr h1
    calc v / W * 100 ≤ 1 * 100 :=
          mul_le_mul_of_nonneg_right hdiv (by norm_num)
      _ = 100 := by ring

/-- C2: (amended): every detection produced by the color-based path
has all four bbox percentages in `[0, 100]` provided the detected boxes
lie within the image.  The embedded-text path's expanded hotspot is not
clamped and can leave the interval — see `c2_counterexample`. -/
theorem c2_color_path_bbox_in_range (imgW imgH : ℤ)
    (engine : ℤ × ℤ × ℤ × ℤ → String × ℕ → OcrOutcome)
    (boxes : List PixBox) (hW : 0 < imgW) (hH : 0 < imgH)
    (hb : ∀ b ∈ boxes, 0 ≤ b.x ∧ 0 ≤ b.y ∧ 0 ≤ b.w ∧ 0 ≤ b.h ∧
      b.x + b.w ≤ imgW ∧ b.y + b.h ≤ imgH) :
    ∀ d ∈ process_image imgW imgH engine boxes,
      (0 ≤ d.x_percentage ∧ d.x_percentage ≤ 100) ∧
      (0 ≤ d.y_percentage ∧ d.y_percentage ≤ 100) ∧
      (0 ≤ d.width_percentage ∧ d.width_percentage ≤ 100) ∧
      (0 ≤ d.height_percentage ∧ d.height_percentage ≤ 100) := by
  intro d hd
  simp only [process_image, List.mem_filterMap] at hd
  obtain ⟨b, hbmem, hdet⟩ := hd
  obtain ⟨hx, hy, hw, hh, hxw, hyh⟩ := hb b hbmem
  dsimp only [boxDetection] at hdet
  cases hocr : extract_sign_number imgW imgH engine b with
  | none => rw [hocr] at hdet; cases hdet
  | some r =>
    rw [hocr] at hdet
    cases hdet
    have hWq : (0 : ℚ) < (imgW : ℚ) := by exact_mod_cast hW
    have hHq : (0 : ℚ) < (imgH : ℚ) := by exact_mod_cast hH
    have hxq : (0 : ℚ) ≤ (b.x : ℚ) := by exact_mod_cast hx
    have hyq : (0 : ℚ) ≤ (b.y : ℚ) := by exact_mod_cast hy
    have hwq : (0 : ℚ) ≤ (b.w : ℚ) := by exact_mod_cast hw
    have hhq : (0 : ℚ) ≤ (b.h : ℚ) := by exact_mod_cast hh
    have hxwq : (b.x : ℚ) + (b.w : ℚ) ≤ (imgW : ℚ) := by exact_mod_cast hxw
    have hyhq : (b.y : ℚ) + (b.h : ℚ) ≤ (imgH : ℚ) := by exact_mod_cast hyh
    refine ⟨pct_bounds (by linarith) (by linarith) hWq,
            pct_bounds (by linarith) (by linarith) hHq,
            pct_bounds hwq (by linarith) hWq,
            pct_bounds hhq (by linarith) hHq⟩

/-- C2: counterexample: on a page with the matching run `"1234"` whose
text box touches the page's left edge, the embedded-text extractor's 30 %
expansion produces a hotspot `x` percentage of −3, outside `[0, 100]`. -/
theorem c2_counterexample :
    (extract_signs_from_page pageEdgeRun 1).map
        SignHotspot.hotspot_x_percentage = [-3] ∧ ((-3 : ℚ) < 0) := by
  constructor
  · simp +decide [extract_signs_from_page, structuredSigns, spanSign,
      hotspotOf, pageEdgeRun, HOTSPOT_EXPANSION, pyStrip, trimBoth,
      List.filterMap_cons]
    norm_num
  · norm_num

/-- C2: witness: the color-path bound theorem applied to a concrete
image, box list and OCR oracle. -/
theorem c2_witness :
    (process_image 100 100 engineConst [⟨0, 0, 10, 10⟩]).all
      (fun d => decide ((0 ≤ d.x_percentage ∧ d.x_percentage ≤ 100) ∧
        (0 ≤ d.y_percentage ∧ d.y_percentage ≤ 100))) = true := by
  rw [List.all_eq_true]
  intro d hd
  have h := c2_color_path_bbox_in_range 100 100 engineConst [⟨0, 0, 10, 10⟩]
    (by norm_num) (by norm_num)
    (by intro b hb
        rcases List.mem_singleton.mp hb with rfl
        refine ⟨by norm_num, by norm_num, by norm_num, by norm_num,
          by norm_num, by norm_num⟩)
    d hd
  exact decide_eq_true ⟨h.1, h.2.1⟩

/-! ## C5: the OCR crop region -/

/-- C5: (amended): the crop region of `extract_sign_number` is the
marker box expanded by 50 px above, 20 px on each horizontal side and
10 px below, each crop edge clamped to the page bounds; when no clamp is
active the crop equals exactly the expanded box. -/
theorem c5_roi_bounds (imgW imgH : ℤ) (b : PixBox)
    (h1 : horizontal_padding ≤ b.x) (h2 : vertical_padding ≤ b.y)
    (h3 : b.x + b.w + horizontal_padding ≤ imgW)
    (h4 : b.y + b.h + 10 ≤ imgH) :
    roiBounds imgW imgH b
      = (b.x - horizontal_padding, b.y - vertical_padding,
         b.x + b.w + horizontal_padding, b.y + b.h + 10) ∧
    (∀ (W H : ℤ) (c : PixBox),
      0 ≤ (roiBounds W H c).1 ∧ 0 ≤ (roiBounds W H c).2.1 ∧
      (roiBounds W H c).2.2.1 ≤ W ∧ (roiBounds W H c).2.2.2 ≤ H) := by
  constructor
  · simp only [roiBounds, horizontal_padding, vertical_padding] at h1 h2 h3 h4 ⊢
    simp only [Prod.mk.injEq]
    refine ⟨by omega, by omega, by omega, by omega⟩
  · intro W H c
    exact ⟨le_max_left _ _, le_max_left _ _, min_le_left _ _, min_le_left _ _⟩

/-- C5: counterexample: for the box (100, 100, 40, 40) on a 1000×1000
page the crop's bottom edge is `y + h + 10 = 150`, not the claimed
`min H (y + h) = 140`: the region extends 10 px below the box. -/
theorem c5_counterexample :
    roiBounds 1000 1000 ⟨100, 100, 40, 40⟩ = (80, 50, 160, 150) ∧
    (roiBounds 1000 1000 ⟨100, 100, 40, 40⟩).2.2.2 ≠ min 1000 (100 + 40) := by
  constructor
  · simp only [roiBounds, horizontal_padding, vertical_padding]
    simp only [Prod.mk.injEq]
    omega
  · simp only [roiBounds, horizontal_padding, vertical_padding]
    omega

/-- C5: witness: the unclamped-case equation at a concrete box. -/
theorem c5_witness :
    roiBounds 1000 1000 ⟨100, 100, 40, 40⟩
      = (100 - horizontal_padding, 100 - vertical_padding,
         100 + 40 + horizontal_padding, 100 + 40 + 10) :=
  (c5_roi_bounds 1000 1000 ⟨100, 100, 40, 40⟩
    (by norm_num [horizontal_padding]) (by norm_num [vertical_padding])
    (by norm_num [horizontal_padding]) (by norm_num)).1

/-! ## C4 and C10: the stacked-box splitter -/

theorem pyRound_intCast (k : ℤ) : pyRound (k : ℚ) = k := by
  unfold pyRound
  rw [Int.floor_intCast, sub_self, if_pos (by norm_num : (0 : ℚ) < 1 / 2)]

theorem pyRound_ge_two {q : ℚ} (hq : 3 / 2 < q) : 2 ≤ pyRound q := by
  have hf1 : (1 : ℤ) ≤ ⌊q⌋ := by
    apply Int.le_floor.mpr
    push_cast
    linarith
  unfold pyRound
  by_cases h2 : (2 : ℤ) ≤ ⌊q⌋
  · split
    · exact h2
    · split
      · omega
      · split <;> omega
  · have hf : ⌊q⌋ = 1 := by omega
    have hfl : (⌊q⌋ : ℚ) = 1 := by exact_mod_cast hf
    have hr : 1 / 2 < q - (⌊q⌋ : ℚ) := by rw [hfl]; linarith
    rw [if_neg (by linarith), if_pos hr, hf]
    norm_num

theorem sum_map_const_range (n : ℕ) (c : ℤ) :
    ((List.range n).map (fun _ => c)).sum = (n : ℤ) * c := by
  induction n with
  | zero => simp
  | succ m ih =>
    rw [List.range_succ, List.map_append, List.sum_append, ih]
    have hone : ((List.map (fun _ => c) [m]).sum) = c := by simp
    rw [hone]
    push_cast
    ring

/-- The splitter's output in the exact-multiple case, as a map over
`List.range`. -/
theorem detect_stacked_eq_map (x y w s : ℤ) (k : ℕ) (hs : 1 ≤ s)
    (hk : 2 ≤ k) :
    detect_stacked_boxes ⟨x, y, w, (k : ℤ) * s⟩ s
      = (List.range k).map (fun i => ⟨x, y + (i : ℤ) * s, w, s⟩) := by
  have hsq : (0 : ℚ) < (s : ℚ) := by exact_mod_cast (by omega : (0 : ℤ) < s)
  have hkq : (2 : ℚ) ≤ (k : ℚ) := by exact_mod_cast hk
  unfold detect_stacked_boxes
  dsimp only
  rw [if_pos (by push_cast; nlinarith)]
  have hdiv : (((k : ℤ) * s : ℤ) : ℚ) / (s : ℚ) = ((k : ℤ) : ℚ) := by
    push_cast
    field_simp
  rw [hdiv, pyRound_intCast, if_pos (by exact_mod_cast (by omega : 1 < k))]
  have hkq0 : ((k : ℤ) : ℚ) ≠ 0 := by push_cast; positivity
  have hih : (((k : ℤ) * s : ℤ) : ℚ) / (((k : ℤ)) : ℚ) = (s : ℚ) := by
    push_cast
    field_simp
  rw [hih, Int.toNat_natCast]
  apply List.map_congr_left
  intro i hi
  have hfy : ((y : ℚ) + (i : ℚ) * (s : ℚ)) = ((y + (i : ℤ) * s : ℤ) : ℚ) := by
    push_cast
    ring
  rw [hfy, Int.floor_intCast, Int.floor_intCast]

/-- C4: for `h ≤ 1.5·s` the splitter returns exactly the original
rectangle; for `h = k·s` with integer `k ≥ 2` it returns exactly `k`
equal-height rectangles of height `h/k`, with the input's `x` and width,
stacked contiguously top-to-bottom, whose heights sum to `h`. -/
theorem c4_splitter_spec (x y w h s : ℤ) (k : ℕ) (hs : 1 ≤ s) :
    (2 * h ≤ 3 * s → detect_stacked_boxes ⟨x, y, w, h⟩ s = [⟨x, y, w, h⟩]) ∧
    (h = (k : ℤ) * s → 2 ≤ k →
      detect_stacked_boxes ⟨x, y, w, h⟩ s
          = (List.range k).map (fun i => ⟨x, y + (i : ℤ) * s, w, s⟩) ∧
      (detect_stacked_boxes ⟨x, y, w, h⟩ s).length = k ∧
      (∀ b ∈ detect_stacked_boxes ⟨x, y, w, h⟩ s,
        b.x = x ∧ b.w = w ∧ (b.h : ℚ) = (h : ℚ) / (k : ℚ)) ∧
      ((detect_stacked_boxes ⟨x, y, w, h⟩ s).map PixBox.h).sum = h ∧
      (∀ i : ℕ, i + 1 < k →
        (detect_stacked_boxes ⟨x, y, w, h⟩ s).get? (i + 1)
          = some ⟨x, (y + (i : ℤ) * s) + s, w, s⟩)) := by
  constructor
  · intro hle
    have hle2 : (2 : ℚ) * (h : ℚ) ≤ 3 * (s : ℚ) := by exact_mod_cast hle
    unfold detect_stacked_boxes
    dsimp only
    rw [if_neg (by rw [gt_iff_lt, not_lt]; linarith)]
  · intro hk h2k
    subst hk
    have hmap := detect_stacked_eq_map x y w s k hs h2k
    have hkq0 : (k : ℚ) ≠ 0 := by positivity
    refine ⟨hmap, ?_, ?_, ?_, ?_⟩
    · rw [hmap, List.length_map, List.length_range]
    · intro b hb
      rw [hmap] at hb
      obtain ⟨i, hi, rfl⟩ := List.mem_map.mp hb
      refine ⟨rfl, rfl, ?_⟩
      show (s : ℚ) = (((k : ℤ) * s : ℤ) : ℚ) / (k : ℚ)
      rw [eq_div_iff hkq0]
      push_cast
      ring
    · rw [hmap, List.map_map]
      have hcomp : (PixBox.h ∘ fun i : ℕ => (⟨x, y + (i : ℤ) * s, w, s⟩ : PixBox))
          = fun _ => s := rfl
      rw [hcomp, sum_map_const_range]
    · intro i hi
      rw [hmap, List.get?_map, List.get?_range hi]
      simp only [Option.map_some', Option.some.injEq, PixBox.mk.injEq,
        true_and, and_true]
      push_cast
      ring

/-- C4: witness: the splitter at the concrete box (5, 7, 30, 120) with
standard height 40 (so k = 3), and the short-box case at height 60. -/
theorem c4_witness :
    detect_stacked_boxes ⟨5, 7, 30, 60⟩ 40 = [⟨5, 7, 30, 60⟩] ∧
    detect_stacked_boxes ⟨5, 7, 30, 120⟩ 40
      = (List.range 3).map (fun i => ⟨5, 7 + (i : ℤ) * 40, 30, 40⟩) := by
  constructor
  · exact (c4_splitter_spec 5 7 30 60 40 3 (by norm_num)).1 (by norm_num)
  · exact ((c4_splitter_spec 5 7 30 120 40 3 (by norm_num)).2
      (by norm_num) (by norm_num)).1

/-- C10: under the 1.5× guard the computed stack count is always at
least 2, so the splitter's fall-through branch for a count of 1 is
unreachable and the output never equals `[original]`. -/
theorem c10_round_count_ge_two (x y w h s : ℤ) (hs : 1 ≤ s)
    (hh : 3 * s < 2 * h) :
    2 ≤ pyRound ((h : ℚ) / (s : ℚ)) ∧
    (detect_stacked_boxes ⟨x, y, w, h⟩ s).length
      = (pyRound ((h : ℚ) / (s : ℚ))).toNat ∧
    2 ≤ (detect_stacked_boxes ⟨x, y, w, h⟩ s).length ∧
    detect_stacked_boxes ⟨x, y, w, h⟩ s ≠ [⟨x, y, w, h⟩] := by
  have hsq : (0 : ℚ) < (s : ℚ) := by exact_mod_cast (by omega : (0 : ℤ) < s)
  have hh2 : (3 : ℚ) * (s : ℚ) < 2 * (h : ℚ) := by exact_mod_cast hh
  have hq : 3 / 2 < (h : ℚ) / (s : ℚ) := by
    rw [lt_div_iff₀ hsq]
    linarith
  have h2 := pyRound_ge_two hq
  have hcond : (h : ℚ) > (s : ℚ) * (3 / 2) := by linarith
  have hlen : (detect_stacked_boxes ⟨x, y, w, h⟩ s).length
      = (pyRound ((h : ℚ) / (s : ℚ))).toNat := by
    unfold detect_stacked_boxes
    dsimp only
    rw [if_pos hcond, if_pos (by omega)]
    rw [List.length_map, List.length_range]
  have hlen2 : 2 ≤ (detect_stacked_boxes ⟨x, y, w, h⟩ s).length := by
    rw [hlen]
    omega
  refine ⟨h2, hlen, hlen2, ?_⟩
  intro heq
  rw [heq] at hlen2
  simp at hlen2

/-- C10: witness: a box of height 61 with standard height 40 (just over
the 1.5× bound). -/
theorem c10_witness :
    2 ≤ pyRound ((61 : ℚ) / (40 : ℚ)) ∧
    2 ≤ (detect_stacked_boxes ⟨0, 0, 30, 61⟩ 40).length := by
  have h := c10_round_count_ge_two 0 0 30 61 40 (by norm_num) (by norm_num)
  exact ⟨h.1, h.2.2.1⟩

/-! ## C3 and C7: the OCR ensemble -/

theorem splitOnChar_ne_nil (c : Char) (l : List Char) : splitOnChar c l ≠ [] := by
  induction l with
  | nil => simp [splitOnChar]
  | cons a rest ih =>
    cases hsp : splitOnChar c rest with
    | nil => exact absurd hsp ih
    | cons g gs =>
      simp only [splitOnChar, hsp]
      split <;> simp

theorem splitOnChar_length (c : Char) (l : List Char) :
    (splitOnChar c l).length = l.count c + 1 := by
  induction l with
  | nil => simp [splitOnChar]
  | cons a rest ih =>
    cases hsp : splitOnChar c rest with
    | nil => exact absurd hsp (splitOnChar_ne_nil c rest)
    | cons g gs =>
      rw [hsp] at ih
      simp only [splitOnChar, hsp]
      by_cases hac : a = c
      · subst hac
        rw [if_pos rfl, List.count_cons_self]
        simp only [List.length_cons] at ih ⊢
        omega
      · rw [if_neg hac, List.count_cons_of_ne (Ne.symm hac)]
        simp only [List.length_cons] at ih ⊢
        omega

/-- Function `_clean_sign_number` keeps the period-stripped text exactly when it
contains a digit and at most one period remains. -/
theorem cleanSignNumber_cases (text : String) :
    ((stripChar '.' text.data).any (fun ch => ch.isDigit) = true ∧
        (stripChar '.' text.data).count '.' ≤ 1 →
      cleanSignNumber text = String.mk (stripChar '.' text.data)) ∧
    (¬ ((stripChar '.' text.data).any (fun ch => ch.isDigit) = true ∧
        (stripChar '.' text.data).count '.' ≤ 1) →
      cleanSignNumber text = "") := by
  constructor
  · rintro ⟨hd, hc⟩
    unfold cleanSignNumber
    dsimp only
    rw [if_pos hd, if_pos]
    rw [splitOnChar_length]
    omega
  · intro hn
    unfold cleanSignNumber
    dsimp only
    by_cases hd : (stripChar '.' text.data).any (fun ch => ch.isDigit) = true
    · have hc : ¬ (stripChar '.' text.data).count '.' ≤ 1 := fun hc => hn ⟨hd, hc⟩
      rw [if_pos hd, if_neg]
      rw [splitOnChar_length]
      omega
    · rw [if_neg hd]

theorem stripChar_nil (c : Char) : stripChar c [] = [] := rfl

theorem betterThan_trans {a b c : OcrCandidate}
    (h1 : betterThan a b = true) (h2 : betterThan b c = true) :
    betterThan a c = true := by
  simp only [betterThan, decide_eq_true_eq] at h1 h2 ⊢
  rcases h1 with h1 | ⟨h1e, h1l⟩ <;> rcases h2 with h2 | ⟨h2e, h2l⟩
  · exact Or.inl (lt_trans h2 h1)
  · exact Or.inl (h2e ▸ h1)
  · exact Or.inl (h1e ▸ h2)
  · exact Or.inr ⟨h1e.trans h2e, lt_trans h2l h1l⟩

theorem betterThan_resolve {x b m : OcrCandidate}
    (h1 : betterThan x m = true) (h2 : betterThan x b = false) :
    betterThan b m = true := by
  simp only [betterThan, decide_eq_true_eq] at h1 ⊢
  simp only [betterThan, decide_eq_false_iff_not] at h2
  push_neg at h2
  obtain ⟨hle, hl⟩ := h2
  rcases h1 with h1 | ⟨h1e, h1l⟩
  · exact Or.inl (lt_of_lt_of_le h1 hle)
  · rcases lt_or_eq_of_le hle with h | h
    · exact Or.inl (h1e ▸ h)
    · have hlen : x.text.length ≤ b.text.length := hl h
      exact Or.inr ⟨h.symm.trans h1e, lt_of_lt_of_le h1l hlen⟩

theorem foldl_best_mem (b : OcrCandidate) (cs : List OcrCandidate) :
    cs.foldl (fun best x => if betterThan x best then x else best) b ∈ b :: cs := by
  induction cs generalizing b with
  | nil => simp
  | cons x cs ih =>
    simp only [List.foldl_cons]
    by_cases h : betterThan x b = true
    · rw [if_pos h]
      rcases List.mem_cons.mp (ih x) with h1 | h1
      · exact List.mem_cons.mpr (Or.inr (List.mem_cons.mpr (Or.inl h1)))
      · exact List.mem_cons.mpr (Or.inr (List.mem_cons.mpr (Or.inr h1)))
    · rw [if_neg h]
      rcases List.mem_cons.mp (ih b) with h1 | h1
      · exact List.mem_cons.mpr (Or.inl h1)
      · exact List.mem_cons.mpr (Or.inr (List.mem_cons.mpr (Or.inr h1)))

theorem foldl_best_maximal (b : OcrCandidate) (cs : List OcrCandidate) :
    ∀ x ∈ b :: cs,
      betterThan x
        (cs.foldl (fun best y => if betterThan y best then y else best) b)
        = false := by
  induction cs generalizing b with
  | nil =>
    intro x hx
    rcases List.mem_singleton.mp hx with rfl
    simp only [List.foldl_nil, betterThan, decide_eq_false_iff_not]
    push_neg
    exact ⟨le_refl _, fun _ => le_refl _⟩
  | cons y cs ih =>
    intro x hx
    simp only [List.foldl_cons]
    by_cases h : betterThan y b = true
    · rw [if_pos h]
      rcases List.mem_cons.mp hx with hxb | hx2
      · subst hxb
        cases hbm : betterThan x
            (cs.foldl (fun best z => if betterThan z best then z else best) y) with
        | false => rfl
        | true =>
          have hym := ih y y (List.mem_cons_self y cs)
          have htr := betterThan_trans h hbm
          rw [htr] at hym
          cases hym
      · rcases List.mem_cons.mp hx2 with hxy | hx3
        · subst hxy
          exact ih x x (List.mem_cons_self x cs)
        · exact ih y x (List.mem_cons.mpr (Or.inr hx3))
    · rw [if_neg h]
      have hbool : betterThan y b = false := by
        cases hb : betterThan y b
        · rfl
        · exact absurd hb h
      rcases List.mem_cons.mp hx with hxb | hx2
      · subst hxb
        exact ih x x (List.mem_cons_self x cs)
      · rcases List.mem_cons.mp hx2 with hxy | hx3
        · subst hxy
          cases hbm : betterThan x
              (cs.foldl (fun best z => if betterThan z best then z else best) b) with
          | false => rfl
          | true =>
            have hbmem := ih b b (List.mem_cons_self b cs)
            have hres := betterThan_resolve hbm hbool
            rw [hres] at hbmem
            cases hbmem
        · exact ih b x (List.mem_cons.mpr (Or.inr hx3))

theorem pickBest_none_iff (l : List OcrCandidate) :
    pickBest l = none ↔ l = [] := by
  cases l with
  | nil => simp [pickBest]
  | cons c cs => simp [pickBest]

theorem pickBest_spec {l : List OcrCandidate} {c : OcrCandidate}
    (h : pickBest l = some c) :
    c ∈ l ∧ ∀ d ∈ l, betterThan d c = false := by
  cases l with
  | nil => cases h
  | cons b cs =>
    simp only [pickBest, Option.some.injEq] at h
    subst h
    exact ⟨foldl_best_mem b cs, foldl_best_maximal b cs⟩

theorem comboResult_conf {engine : String × ℕ → OcrOutcome}
    {p : String × ℕ} {c : OcrCandidate}
    (h : comboResult engine p = some c) : 30 < c.confidence := by
  unfold comboResult at h
  cases he : engine p with
  | err => rw [he] at h; cases h
  | ok raw confs =>
    rw [he] at h
    dsimp only at h
    split at h
    · split at h
      · split at h
        · rename_i havg
          cases h
          exact havg
        · cases h
      · cases h
    · cases h

theorem comboResult_some_iff (engine : String × ℕ → OcrOutcome)
    (p : String × ℕ) (raw : String) (confs : List ℚ)
    (he : engine p = .ok raw confs) :
    ((comboResult engine p).isSome = true ↔
      ((stripChar '.' (pyStrip raw).data).any (fun ch => ch.isDigit) = true ∧
       (stripChar '.' (pyStrip raw).data).count '.' ≤ 1 ∧
       3 ≤ (stripChar '.' (pyStrip raw).data).length ∧
       30 < avgConf confs)) := by
  unfold comboResult
  rw [he]
  dsimp only
  constructor
  · intro hsome
    split at hsome
    · rename_i hne
      split at hsome
      · rename_i hacc
        split at hsome
        · rename_i havg
          obtain ⟨hcln, hlen⟩ := hacc
          by_cases hcase : (stripChar '.' (pyStrip raw).data).any
              (fun ch => ch.isDigit) = true ∧
              (stripChar '.' (pyStrip raw).data).count '.' ≤ 1
          · obtain ⟨hd, hc⟩ := hcase
            have heq := (cleanSignNumber_cases (pyStrip raw)).1 ⟨hd, hc⟩
            rw [heq] at hlen
            exact ⟨hd, hc, hlen, havg⟩
          · have heq := (cleanSignNumber_cases (pyStrip raw)).2 hcase
            exact absurd heq hcln
        · cases hsome
      · cases hsome
    · cases hsome
  · rintro ⟨hd, hc, hlen, havg⟩
    have heq := (cleanSignNumber_cases (pyStrip raw)).1 ⟨hd, hc⟩
    have hne : pyStrip raw ≠ "" := by
      intro hnil
      rw [hnil] at hd
      simp [pyStrip, stripChar, trimBoth] at hd
    have htne : String.mk (stripChar '.' (pyStrip raw).data) ≠ "" := by
      intro hnil
      have hdata : stripChar '.' (pyStrip raw).data = [] := by
        have := congrArg String.data hnil
        simpa using this
      rw [hdata] at hd
      simp at hd
    rw [if_pos hne, if_pos ⟨by rw [heq]; exact htne, by rw [heq]; exact hlen⟩,
        if_pos havg]
    rfl

/-- C3: the OCR ensemble returns no detection exactly when no
(preprocessing × layout-mode) combination yields a surviving candidate; a
combination producing raw text `raw` with confidences `confs` survives iff
(after stripping leading/trailing periods from the whitespace-stripped
engine output) the text contains a digit, has at most one internal period,
is at least 3 characters long, and the averaged confidence exceeds 30;
otherwise a surviving candidate maximizing (confidence, text length)
lexicographically is returned, so every emitted result has confidence
strictly above 30. -/
theorem c3_ensemble_selection (imgW imgH : ℤ) (b : PixBox)
    (engine : ℤ × ℤ × ℤ × ℤ → String × ℕ → OcrOutcome) :
    (extract_sign_number imgW imgH engine b = none ↔
      ∀ p ∈ ocrCombos,
        comboResult (engine (roiBounds imgW imgH b)) p = none) ∧
    (∀ p raw confs,
      engine (roiBounds imgW imgH b) p = .ok raw confs →
      ((comboResult (engine (roiBounds imgW imgH b)) p).isSome = true ↔
        ((stripChar '.' (pyStrip raw).data).any (fun ch => ch.isDigit) = true ∧
         (stripChar '.' (pyStrip raw).data).count '.' ≤ 1 ∧
         3 ≤ (stripChar '.' (pyStrip raw).data).length ∧
         30 < avgConf confs))) ∧
    (∀ c, extract_sign_number imgW imgH engine b = some c →
      c ∈ ocrCombos.filterMap (comboResult (engine (roiBounds imgW imgH b))) ∧
      30 < c.confidence ∧
      ∀ d ∈ ocrCombos.filterMap (comboResult (engine (roiBounds imgW imgH b))),
        d.confidence < c.confidence ∨
        (d.confidence = c.confidence ∧ d.text.length ≤ c.text.length)) := by
  refine ⟨?_, ?_, ?_⟩
  · unfold extract_sign_number
    rw [pickBest_none_iff, List.filterMap_eq_nil]
  · intro p raw confs he
    exact comboResult_some_iff _ p raw confs he
  · intro c hc
    unfold extract_sign_number at hc
    obtain ⟨hmem, hmax⟩ := pickBest_spec hc
    obtain ⟨p, -, hp⟩ := List.mem_filterMap.mp hmem
    refine ⟨hmem, comboResult_conf hp, ?_⟩
    intro d hd
    have hnb := hmax d hd
    simp only [betterThan, decide_eq_false_iff_not] at hnb
    push_neg at hnb
    obtain ⟨h1, h2⟩ := hnb
    rcases lt_or_eq_of_le h1 with h | h
    · exact Or.inl h
    · exact Or.inr ⟨h, h2 h⟩

/-- C3: witness: the none-iff characterization at a concrete image,
box and all-failing engine. -/
theorem c3_witness :
    extract_sign_number 100 100 engineAllErr ⟨0, 0, 10, 10⟩ = none ↔
      ∀ p ∈ ocrCombos,
        comboResult (engineAllErr (roiBounds 100 100 ⟨0, 0, 10, 10⟩)) p
          = none :=
  (c3_ensemble_selection 100 100 ⟨0, 0, 10, 10⟩ engineAllErr).1

theorem filterMap_filter_ne {α β : Type} [DecidableEq α]
    (f : α → Option β) (p : α) (hf : f p = none) (l : List α) :
    (l.filter (fun q => decide (q ≠ p))).filterMap f = l.filterMap f := by
  induction l with
  | nil => rfl
  | cons a l ih =>
    rw [List.filter_cons]
    by_cases hap : a = p
    · subst hap
      rw [if_neg (by simp), ih, List.filterMap_cons, hf]
    · rw [if_pos (by simp [hap]), List.filterMap_cons, List.filterMap_cons, ih]

/-- C7: an engine failure on one combination is skipped (its result
is `none`), every remaining combination is still attempted (the result
equals the selection over the other combinations), total failure yields no
detection, and a box's failure never affects the processing of the other
boxes of the page. -/
theorem c7_engine_failure_isolation (imgW imgH : ℤ)
    (engine : ℤ × ℤ × ℤ × ℤ → String × ℕ → OcrOutcome) (b : PixBox)
    (p : String × ℕ)
    (hp : engine (roiBounds imgW imgH b) p = .err) :
    comboResult (engine (roiBounds imgW imgH b)) p = none ∧
    extract_sign_number imgW imgH engine b
      = pickBest ((ocrCombos.filter (fun q => decide (q ≠ p))).filterMap
          (comboResult (engine (roiBounds imgW imgH b)))) ∧
    ((∀ q ∈ ocrCombos,
        comboResult (engine (roiBounds imgW imgH b)) q = none) →
      extract_sign_number imgW imgH engine b = none) ∧
    (∀ pre post : List PixBox,
      process_image imgW imgH engine (pre ++ b :: post)
        = process_image imgW imgH engine pre
          ++ (boxDetection imgW imgH engine b).toList
          ++ process_image imgW imgH engine post) := by
  have hnone : comboResult (engine (roiBounds imgW imgH b)) p = none := by
    unfold comboResult
    rw [hp]
  refine ⟨hnone, ?_, ?_, ?_⟩
  · unfold extract_sign_number
    rw [filterMap_filter_ne _ p hnone]
  · intro hall
    unfold extract_sign_number
    rw [pickBest_none_iff, List.filterMap_eq_nil]
    exact hall
  · intro pre post
    unfold process_image
    rw [List.filterMap_append, List.filterMap_cons]
    cases hdet : boxDetection imgW imgH engine b with
    | none => simp [Option.toList]
    | some d => simp [Option.toList]

/-- C7: witness: with an engine that throws on every combination, the
extractor returns no detection. -/
theorem c7_witness :
    extract_sign_number 100 100 engineAllErr ⟨0, 0, 10, 10⟩ = none := by
  have h := c7_engine_failure_isolation 100 100 engineAllErr ⟨0, 0, 10, 10⟩
    ("otsu", 8) rfl
  exact h.2.2.1 (fun q hq => rfl)

/-! ## C6: deduplication of fallback finds -/

theorem fallbackLineStep_cond (signs : List SignHotspot) (line : String) :
    ((matchesSignPattern (pyStrip line) &&
        !(signs.any (fun s => s.sign_number == pyStrip line))) = true ↔
      (matchesSignPattern (pyStrip line) = true ∧
       ∀ s ∈ signs, s.sign_number ≠ pyStrip line)) := by
  rw [Bool.and_eq_true, Bool.not_eq_true', List.any_eq_false]
  constructor
  · rintro ⟨h1, h2⟩
    exact ⟨h1, fun s hs => by simpa using h2 s hs⟩
  · rintro ⟨h1, h2⟩
    exact ⟨h1, fun s hs => by simpa using h2 s hs⟩

theorem fallbackLineStep_fresh {pw ph : ℚ} {pn n : ℕ} {rb : RawBlock}
    {init signs : List SignHotspot} {line : String}
    (h : ∃ extra, signs = init ++ extra ∧
      (extra.map SignHotspot.sign_number).Nodup ∧
      ∀ s ∈ extra, s.sign_number ∉ init.map SignHotspot.sign_number ∧
        matchesSignPattern s.sign_number = true) :
    ∃ extra, fallbackLineStep pw ph pn rb n signs line = init ++ extra ∧
      (extra.map SignHotspot.sign_number).Nodup ∧
      ∀ s ∈ extra, s.sign_number ∉ init.map SignHotspot.sign_number ∧
        matchesSignPattern s.sign_number = true := by
  obtain ⟨extra, rfl, hnd, hfresh⟩ := h
  dsimp only [fallbackLineStep]
  split
  · rename_i hcond
    obtain ⟨hm, hfr⟩ := (fallbackLineStep_cond (init ++ extra) line).mp hcond
    refine ⟨extra ++ [_], List.append_assoc init extra _, ?_, ?_⟩
    · rw [List.map_append]
      refine List.Nodup.append hnd (List.nodup_singleton _) ?_
      intro a ha hb
      simp only [List.map_cons, List.map_nil, List.mem_singleton] at hb
      subst hb
      obtain ⟨s, hs, hsn⟩ := List.mem_map.mp ha
      exact hfr s (List.mem_append.mpr (Or.inr hs)) hsn
    · intro s hs
      rcases List.mem_append.mp hs with hs1 | hs2
      · exact hfresh s hs1
      · rcases List.mem_singleton.mp hs2 with rfl
        refine ⟨?_, hm⟩
        intro hmem
        obtain ⟨s0, hs0, hsn0⟩ := List.mem_map.mp hmem
        exact hfr s0 (List.mem_append.mpr (Or.inl hs0)) hsn0
  · exact ⟨extra, rfl, hnd, hfresh⟩

theorem fallbackBlockStep_fresh {pw ph : ℚ} {pn : ℕ} {rb : RawBlock}
    {init signs : List SignHotspot}
    (h : ∃ extra, signs = init ++ extra ∧
      (extra.map SignHotspot.sign_number).Nodup ∧
      ∀ s ∈ extra, s.sign_number ∉ init.map SignHotspot.sign_number ∧
        matchesSignPattern s.sign_number = true) :
    ∃ extra, fallbackBlockStep pw ph pn signs rb = init ++ extra ∧
      (extra.map SignHotspot.sign_number).Nodup ∧
      ∀ s ∈ extra, s.sign_number ∉ init.map SignHotspot.sign_number ∧
        matchesSignPattern s.sign_number = true := by
  dsimp only [fallbackBlockStep]
  exact foldl_preserves
    (fun (acc : List SignHotspot) => ∃ extra, acc = init ++ extra ∧
      (extra.map SignHotspot.sign_number).Nodup ∧
      ∀ s ∈ extra, s.sign_number ∉ init.map SignHotspot.sign_number ∧
        matchesSignPattern s.sign_number = true) _
    (fun acc a hq => fallbackLineStep_fresh hq) _ _ h

/-- C6: (amended): a fallback line is kept iff it matches the pattern
and its label was not already captured by the structured walk **or by an
earlier fallback find** — deduplication by label applies to all previously
collected signs, so the fallback finds extend the structured list with
labels that are pairwise distinct and absent from the structured walk. -/
theorem c6_fallback_dedup (page : PageTextLayer) (pn : ℕ) :
    (∀ (pw ph : ℚ) (n : ℕ) (rb : RawBlock) (signs : List SignHotspot)
        (line : String),
      matchesSignPattern (pyStrip line) = true →
      (∀ s ∈ signs, s.sign_number ≠ pyStrip line) →
      ∃ hs, fallbackLineStep pw ph pn rb n signs line = signs ++ [hs] ∧
        hs.sign_number = pyStrip line) ∧
    (∀ (pw ph : ℚ) (n : ℕ) (rb : RawBlock) (signs : List SignHotspot)
        (line : String),
      ¬ (matchesSignPattern (pyStrip line) = true ∧
          ∀ s ∈ signs, s.sign_number ≠ pyStrip line) →
      fallbackLineStep pw ph pn rb n signs line = signs) ∧
    (∃ extra,
      extract_signs_from_page page pn = structuredSigns page pn ++ extra ∧
      (extra.map SignHotspot.sign_number).Nodup ∧
      ∀ s ∈ extra,
        s.sign_number ∉ (structuredSigns page pn).map SignHotspot.sign_number ∧
        matchesSignPattern s.sign_number = true) := by
  refine ⟨?_, ?_, ?_⟩
  · intro pw ph n rb signs line hm hfresh
    dsimp only [fallbackLineStep]
    rw [if_pos ((fallbackLineStep_cond signs line).mpr ⟨hm, hfresh⟩)]
    exact ⟨_, rfl, rfl⟩
  · intro pw ph n rb signs line hn
    dsimp only [fallbackLineStep]
    rw [if_neg (fun hc => hn ((fallbackLineStep_cond signs line).mp hc))]
  · unfold extract_signs_from_page
    exact foldl_preserves
      (fun (acc : List SignHotspot) =>
        ∃ extra, acc = structuredSigns page pn ++ extra ∧
        (extra.map SignHotspot.sign_number).Nodup ∧
        ∀ s ∈ extra,
          s.sign_number ∉ (structuredSigns page pn).map SignHotspot.sign_number ∧
          matchesSignPattern s.sign_number = true) _
      (fun acc a hq => fallbackBlockStep_fresh hq) _ _
      ⟨[], by simp⟩

/-- C6: counterexample: with an empty structured walk and a block whose
text is `"1234\n1234"`, only one detection is kept — the second fallback
line is dropped although its label was never captured by the structured
walk, so fallback finds are deduplicated against each other as well. -/
theorem c6_counterexample :
    structuredSigns pageDupBlock 1 = [] ∧
    (extract_signs_from_page pageDupBlock 1).map SignHotspot.sign_number
      = ["1234"] := by
  constructor
  · rfl
  · decide

/-- C6: witness: the freshness decomposition at a concrete page. -/
theorem c6_witness :
    ∃ extra,
      extract_signs_from_page pageSimpleRun 1
        = structuredSigns pageSimpleRun 1 ++ extra ∧
      (extra.map SignHotspot.sign_number).Nodup ∧
      ∀ s ∈ extra,
        s.sign_number ∉ (structuredSigns pageSimpleRun 1).map
          SignHotspot.sign_number ∧
        matchesSignPattern s.sign_number = true :=
  (c6_fallback_dedup pageSimpleRun 1).2.2

/-! ## C8 and C9: the proximity grouper

The fold of `group_nearby_page` threads the annotated sign list, but all
of its decisions depend only on the `core` projection, which annotations
never change.  The lemmas below replay the fold on cores (`coreStep`),
characterize the annotations pointwise (`wApply`, `lastWrite`) and derive
idempotence. -/

theorem setGroup_core (lbl : String) (sz : ℕ) (s : PageSign) :
    core (setGroup lbl sz s) = core s := rfl

theorem setGroup_setGroup (l₁ l₂ : String) (n₁ n₂ : ℕ) (s : PageSign) :
    setGroup l₁ n₁ (setGroup l₂ n₂ s) = setGroup l₁ n₁ s := rfl

theorem annotateFrom_get? (lbl : String) (sz : ℕ) (idxs : List ℕ) :
    ∀ (signs : List PageSign) (j m : ℕ),
      (annotateFrom lbl sz idxs j signs).get? m
        = (signs.get? m).map
            (fun s => if j + m ∈ idxs then setGroup lbl sz s else s) := by
  intro signs
  induction signs with
  | nil => intro j m; simp [annotateFrom]
  | cons s rest ih =>
    intro j m
    cases m with
    | zero => simp [annotateFrom]
    | succ m' =>
      show (annotateFrom lbl sz idxs (j + 1) rest).get? m' = _
      rw [ih (j + 1) m']
      have harith : j + 1 + m' = j + (m' + 1) := by omega
      rw [harith]
      rfl

theorem applyGroups_append_singleton (G : List GroupRec) (g : GroupRec)
    (signs : List PageSign) :
    applyGroups (G ++ [g]) signs
      = annotateAll g.lbl g.sz g.idxs (applyGroups G signs) := by
  unfold applyGroups
  rw [List.foldl_append]
  rfl

theorem wApply_cons (g : GroupRec) (G : List GroupRec) (j : ℕ) (s : PageSign) :
    wApply (g :: G) j s
      = wApply G j (if j ∈ g.idxs then setGroup g.lbl g.sz s else s) := rfl

theorem applyGroups_get? (G : List GroupRec) :
    ∀ (signs : List PageSign) (m : ℕ),
      (applyGroups G signs).get? m = (signs.get? m).map (wApply G m) := by
  induction G with
  | nil =>
    intro signs m
    show signs.get? m = _
    cases signs.get? m <;> rfl
  | cons g G ih =>
    intro signs m
    show (applyGroups G (annotateAll g.lbl g.sz g.idxs signs)).get? m = _
    rw [ih, annotateAll, annotateFrom_get?]
    cases signs.get? m with
    | none => rfl
    | some s =>
      simp only [Option.map_some']
      rw [wApply_cons]
      have hzero : 0 + m = m := by omega
      rw [hzero]

theorem lastWrite_aux (j : ℕ) :
    ∀ (G : List GroupRec) (a : Option (String × ℕ)),
      G.foldl (fun acc g => if j ∈ g.idxs then some (g.lbl, g.sz) else acc) a
        = match G.foldl
            (fun acc g => if j ∈ g.idxs then some (g.lbl, g.sz) else acc)
            none with
          | some ln => some ln
          | none => a := by
  intro G
  induction G with
  | nil => intro a; rfl
  | cons g G ih =>
    intro a
    show G.foldl _ (if j ∈ g.idxs then some (g.lbl, g.sz) else a) = _
    by_cases hj : j ∈ g.idxs
    · rw [if_pos hj]
      rw [ih (some (g.lbl, g.sz))]
      conv_rhs =>
        rw [List.foldl_cons, if_pos hj, ih (some (g.lbl, g.sz))]
      cases G.foldl
          (fun acc g => if j ∈ g.idxs then some (g.lbl, g.sz) else acc)
          none <;> rfl
    · rw [if_neg hj]
      rw [ih a]
      conv_rhs => rw [List.foldl_cons, if_neg hj]

theorem wApply_eq_lastWrite (G : List GroupRec) (j : ℕ) (s : PageSign) :
    wApply G j s = match lastWrite G j with
      | none => s
      | some ln => setGroup ln.1 ln.2 s := by
  induction G generalizing s with
  | nil => rfl
  | cons g G ih =>
    rw [wApply_cons]
    show _ = match lastWrite (g :: G) j with
      | none => s
      | some ln => setGroup ln.1 ln.2 s
    have hlw : lastWrite (g :: G) j
        = match lastWrite G j with
          | some ln => some ln
          | none => if j ∈ g.idxs then some (g.lbl, g.sz) else none := by
      unfold lastWrite
      rw [List.foldl_cons]
      by_cases hj : j ∈ g.idxs
      · rw [if_pos hj, lastWrite_aux j G (some (g.lbl, g.sz))]
      · rw [if_neg hj]
        exact lastWrite_aux j G none
    rw [hlw]
    by_cases hj : j ∈ g.idxs
    · rw [if_pos hj, ih (setGroup g.lbl g.sz s)]
      cases hlg : lastWrite G j with
      | none => simp [hj]
      | some ln => simp [setGroup_setGroup]
    · rw [if_neg hj, ih s]
      cases hlg : lastWrite G j with
      | none => simp [hj]
      | some ln => simp

theorem wApply_core (G : List GroupRec) (j : ℕ) (s : PageSign) :
    core (wApply G j s) = core s := by
  rw [wApply_eq_lastWrite]
  cases lastWrite G j <;> rfl

theorem wApply_idem (G : List GroupRec) (j : ℕ) (s : PageSign) :
    wApply G j (wApply G j s) = wApply G j s := by
  have h1 := wApply_eq_lastWrite G j s
  have h2 := wApply_eq_lastWrite G j (wApply G j s)
  cases hlw : lastWrite G j with
  | none =>
    rw [hlw] at h1 h2
    exact h2
  | some ln =>
    rw [hlw] at h1 h2
    rw [h2, h1]
    simp [setGroup_setGroup]

theorem applyGroups_idem (G : List GroupRec) (signs : List PageSign) :
    applyGroups G (applyGroups G signs) = applyGroups G signs := by
  apply List.ext_get?
  intro m
  rw [applyGroups_get?, applyGroups_get?]
  cases signs.get? m with
  | none => rfl
  | some s =>
    simp only [Option.map_some']
    rw [wApply_idem]

theorem annotateFrom_core (lbl : String) (sz : ℕ) (idxs : List ℕ) :
    ∀ (signs : List PageSign) (j : ℕ),
      (annotateFrom lbl sz idxs j signs).map core = signs.map core := by
  intro signs
  induction signs with
  | nil => intro j; rfl
  | cons s rest ih =>
    intro j
    show core (if j ∈ idxs then setGroup lbl sz s else s) ::
        ((annotateFrom lbl sz idxs (j + 1) rest).map core)
      = core s :: rest.map core
    rw [ih (j + 1)]
    by_cases hj : j ∈ idxs
    · rw [if_pos hj, setGroup_core]
    · rw [if_neg hj]

theorem applyGroups_core (G : List GroupRec) (signs : List PageSign) :
    (applyGroups G signs).map core = signs.map core := by
  induction G generalizing signs with
  | nil => rfl
  | cons g G ih =>
    show (applyGroups G (annotateAll g.lbl g.sz g.idxs signs)).map core = _
    rw [ih, annotateAll, annotateFrom_core]

/-- One step of the annotated fold corresponds to one step of the core
fold: the annotations produced so far never change the fields the step
reads. -/
theorem groupStep_eq (t : ℚ) (signs0 : List PageSign) (G : List GroupRec)
    (used : List ℕ) (i : ℕ) :
    groupStep t (applyGroups G signs0, used) i
      = (applyGroups (coreStep t (signs0.map core) (G, used) i).1 signs0,
         (coreStep t (signs0.map core) (G, used) i).2) := by
  unfold groupStep coreStep
  dsimp only
  by_cases hi : i ∈ used
  · rw [if_pos hi, if_pos hi]
  · rw [if_neg hi, if_neg hi]
    rw [applyGroups_get?, List.get?_map]
    cases hs0 : signs0.get? i with
    | none => simp only [Option.map_none']
    | some s0 =>
      simp only [Option.map_some']
      have hsn : (wApply G i s0).sign_number = s0.sign_number :=
        congrArg GCore.num (wApply_core G i s0)
      rw [applyGroups_core, wApply_core, hsn,
          show (core s0).num = s0.sign_number from rfl]
      by_cases hlen :
          (i :: seedJoined t (signs0.map core) (i :: used) i (core s0)).length
            > 1
      · rw [if_pos hlen, if_pos hlen, applyGroups_append_singleton]
      · rw [if_neg hlen, if_neg hlen]

theorem groupFold_eq (t : ℚ) (signs0 : List PageSign) :
    ∀ (L : List ℕ) (G : List GroupRec) (used : List ℕ),
      L.foldl (groupStep t) (applyGroups G signs0, used)
        = (applyGroups
            (L.foldl (coreStep t (signs0.map core)) (G, used)).1 signs0,
           (L.foldl (coreStep t (signs0.map core)) (G, used)).2) := by
  intro L
  induction L with
  | nil => intro G used; rfl
  | cons i L ih =>
    intro G used
    rw [List.foldl_cons, List.foldl_cons, groupStep_eq]
    exact ih (coreStep t (signs0.map core) (G, used) i).1
      (coreStep t (signs0.map core) (G, used) i).2

theorem group_nearby_page_eq (t : ℚ) (signs : List PageSign) :
    group_nearby_page t signs
      = if signs.length < 2 then signs
        else applyGroups
          ((List.range signs.length).foldl
            (coreStep t (signs.map core)) ([], [])).1 signs := by
  unfold group_nearby_page
  by_cases h : signs.length < 2
  · rw [if_pos h, if_pos h]
  · rw [if_neg h, if_neg h]
    exact congrArg Prod.fst
      (groupFold_eq t signs (List.range signs.length) [] [])

theorem group_nearby_page_core (t : ℚ) (signs : List PageSign) :
    (group_nearby_page t signs).map core = signs.map core := by
  rw [group_nearby_page_eq]
  split
  · rfl
  · exact applyGroups_core _ _

theorem group_nearby_page_length (t : ℚ) (signs : List PageSign) :
    (group_nearby_page t signs).length = signs.length := by
  have h := congrArg List.length (group_nearby_page_core t signs)
  simpa using h

theorem group_page_idem (t : ℚ) (signs : List PageSign) :
    group_nearby_page t (group_nearby_page t signs)
      = group_nearby_page t signs := by
  by_cases h : signs.length < 2
  · have hg : group_nearby_page t signs = signs := by
      unfold group_nearby_page
      rw [if_pos h]
    rw [hg]
    exact hg
  · have hlen := group_nearby_page_length t signs
    have hcore := group_nearby_page_core t signs
    have h2 : ¬ (group_nearby_page t signs).length < 2 := by
      rw [hlen]
      exact h
    rw [group_nearby_page_eq t (group_nearby_page t signs), if_neg h2,
        hcore, hlen]
    rw [group_nearby_page_eq t signs, if_neg h]
    exact applyGroups_idem _ _

/-- C9: the proximity grouper is idempotent — applying it to its own
output changes nothing, both per page and over a whole result set. -/
theorem c9_grouper_idempotent (t : ℚ) (pages : List (List PageSign))
    (signs : List PageSign) :
    group_nearby_signs (group_nearby_signs pages t) t
      = group_nearby_signs pages t ∧
    group_nearby_page t (group_nearby_page t signs)
      = group_nearby_page t signs := by
  refine ⟨?_, group_page_idem t signs⟩
  unfold group_nearby_signs
  rw [List.map_map]
  apply List.map_congr_left
  intro p hp
  exact group_page_idem t p

theorem lastWrite_cons (g : GroupRec) (G : List GroupRec) (j : ℕ) :
    lastWrite (g :: G) j
      = match lastWrite G j with
        | some ln => some ln
        | none => if j ∈ g.idxs then some (g.lbl, g.sz) else none := by
  unfold lastWrite
  rw [List.foldl_cons]
  by_cases hj : j ∈ g.idxs
  · rw [if_pos hj, lastWrite_aux j G (some (g.lbl, g.sz))]
  · rw [if_neg hj]
    exact lastWrite_aux j G none

theorem lastWrite_eq_some {m : ℕ} {ln : String × ℕ} :
    ∀ {G : List GroupRec}, lastWrite G m = some ln →
      ∃ g ∈ G, m ∈ g.idxs ∧ ln = (g.lbl, g.sz) := by
  intro G
  induction G with
  | nil =>
    intro h
    simp [lastWrite] at h
  | cons g G ih =>
    intro h
    rw [lastWrite_cons] at h
    cases hG : lastWrite G m with
    | some ln2 =>
      rw [hG] at h
      simp only [Option.some.injEq] at h
      subst h
      obtain ⟨g2, hg2, hm2, hln2⟩ := ih hG
      exact ⟨g2, List.mem_cons.mpr (Or.inr hg2), hm2, hln2⟩
    | none =>
      rw [hG] at h
      by_cases hj : m ∈ g.idxs
      · rw [if_pos hj] at h
        simp only [Option.some.injEq] at h
        exact ⟨g, List.mem_cons_self g G, hj, h.symm⟩
      · rw [if_neg hj] at h
        cases h

theorem lastWrite_covered {G : List GroupRec} {g : GroupRec} {m : ℕ}
    (hg : g ∈ G) (hm : m ∈ g.idxs) : lastWrite G m ≠ none := by
  induction G with
  | nil => cases hg
  | cons g2 G ih =>
    rw [lastWrite_cons]
    cases hG : lastWrite G m with
    | some ln => simp
    | none =>
      rcases List.mem_cons.mp hg with hgg | hg2
      · subst hgg
        simp [hm]
      · exact absurd hG (ih hg2)

/-- Every group recorded by the core fold has size at least 2, a size
equal to its member count, and the shared descriptive label built from a
base and that size. -/
theorem coreStep_groups (t : ℚ) (cores : List GCore)
    (st : List GroupRec × List ℕ) (i : ℕ)
    (h : ∀ g ∈ st.1, 2 ≤ g.sz ∧ g.sz = g.idxs.length ∧
      ∃ base, g.lbl = groupLabel base g.sz) :
    ∀ g ∈ (coreStep t cores st i).1, 2 ≤ g.sz ∧ g.sz = g.idxs.length ∧
      ∃ base, g.lbl = groupLabel base g.sz := by
  unfold coreStep
  dsimp only
  by_cases hi : i ∈ st.2
  · rw [if_pos hi]
    exact h
  · rw [if_neg hi]
    cases hc : cores.get? i with
    | none => exact h
    | some c1 =>
      dsimp only
      by_cases hlen : (i :: seedJoined t cores (i :: st.2) i c1).length > 1
      · rw [if_pos hlen]
        intro g hg
        rcases List.mem_append.mp hg with hg1 | hg2
        · exact h g hg1
        · rcases List.mem_singleton.mp hg2 with rfl
          refine ⟨?_, rfl, ⟨baseOf c1.num, rfl⟩⟩
          simpa using hlen
      · rw [if_neg hlen]
        exact h

/-- General annotation behaviour of the grouper: there is a list of
recorded groups, each of size ≥ 2 with its shared "«base» series
(n signs)" label, such that every output sign is the input sign with
`group`/`group_size` overwritten by the covering group's shared label and
size when one covers its position, and is the **unchanged** input sign
(in particular still unannotated) when none does. -/
theorem group_nearby_page_pointwise (t : ℚ) (signs : List PageSign) :
    ∃ G : List GroupRec,
      (∀ g ∈ G, 2 ≤ g.sz ∧ g.sz = g.idxs.length ∧
        ∃ base, g.lbl = groupLabel base g.sz) ∧
      (∀ m, (group_nearby_page t signs).get? m
          = (signs.get? m).map (fun s =>
              match lastWrite G m with
              | none => s
              | some ln => setGroup ln.1 ln.2 s)) ∧
      (∀ m ln, lastWrite G m = some ln →
        ∃ g ∈ G, m ∈ g.idxs ∧ ln = (g.lbl, g.sz)) ∧
      (∀ g ∈ G, ∀ m ∈ g.idxs, lastWrite G m ≠ none) := by
  by_cases h : signs.length < 2
  · refine ⟨[], by simp, ?_, by simp [lastWrite], by simp⟩
    intro m
    unfold group_nearby_page
    rw [if_pos h]
    cases signs.get? m <;> simp [lastWrite]
  · refine ⟨((List.range signs.length).foldl
        (coreStep t (signs.map core)) ([], [])).1, ?_, ?_, ?_, ?_⟩
    · exact foldl_preserves
        (fun (st : List GroupRec × List ℕ) =>
          ∀ g ∈ st.1, 2 ≤ g.sz ∧ g.sz = g.idxs.length ∧
            ∃ base, g.lbl = groupLabel base g.sz)
        (coreStep t (signs.map core))
        (fun st i hq => coreStep_groups t (signs.map core) st i hq)
        (List.range signs.length) ([], []) (by simp)
    · intro m
      rw [group_nearby_page_eq, if_neg h, applyGroups_get?]
      cases signs.get? m with
      | none => rfl
      | some s =>
        simp only [Option.map_some']
        rw [wApply_eq_lastWrite]
    · intro m ln hml
      exact lastWrite_eq_some hml
    · intro g hg m hm
      exact lastWrite_covered hg hm

/-- C8: an unvisited candidate `j` sharing the seed's integer base joins
the seed's group iff its percentage-space offsets satisfy the alignment
condition; in general every group the grouper records has size ≥ 2 and a
shared "«base» series (n signs)" label, each output sign covered by a
group carries exactly that group's shared label and size, and a sign
covered by no group — every singleton — is returned unchanged, hence
unannotated; in the concrete scenario the two series labels "2001.1" at
(10 %, 20 %) and "2001.2" at (10 %, 21.5 %) with threshold 2 form one
annotated group of size 2 while the far-away singleton "3005.1" is left
untouched. -/
theorem c8_series_grouping (t : ℚ) (cores : List GCore) (used : List ℕ)
    (i j : ℕ) (c1 c2 : GCore) (hj : cores.get? j = some c2)
    (hseries : pyContainsChar c1.num '.' = true) :
    (j ∈ seedJoined t cores used i c1 ↔
      (j ≠ i ∧ j ∉ used ∧
       pyStartsWith c2.num (baseOf c1.num ++ ".") = true ∧
       ((|c1.gx - c2.gx| < t ∧ |c1.gy - c2.gy| < t * 3) ∨
        (|c1.gy - c2.gy| < t ∧ |c1.gx - c2.gx| < t * 3)))) ∧
    (∀ (t2 : ℚ) (signs : List PageSign),
      ∃ G : List GroupRec,
        (∀ g ∈ G, 2 ≤ g.sz ∧ g.sz = g.idxs.length ∧
          ∃ base, g.lbl = groupLabel base g.sz) ∧
        (∀ m, (group_nearby_page t2 signs).get? m
            = (signs.get? m).map (fun s =>
                match lastWrite G m with
                | none => s
                | some ln => setGroup ln.1 ln.2 s)) ∧
        (∀ m ln, lastWrite G m = some ln →
          ∃ g ∈ G, m ∈ g.idxs ∧ ln = (g.lbl, g.sz)) ∧
        (∀ g ∈ G, ∀ m ∈ g.idxs, lastWrite G m ≠ none)) ∧
    group_nearby_page 2 [seriesSignA, seriesSignB, loneSign]
      = [setGroup "2001 series (2 signs)" 2 seriesSignA,
         setGroup "2001 series (2 signs)" 2 seriesSignB, loneSign] ∧
    group_nearby_page 2 [seriesSignA, seriesSignB]
      = [setGroup "2001 series (2 signs)" 2 seriesSignA,
         setGroup "2001 series (2 signs)" 2 seriesSignB] ∧
    (setGroup "2001 series (2 signs)" 2 seriesSignA).group
      = some "2001 series (2 signs)" ∧
    (setGroup "2001 series (2 signs)" 2 seriesSignA).group_size = some 2 ∧
    seriesSignA.group = none ∧ seriesSignB.group = none ∧
    loneSign.group = none ∧ loneSign.group_size = none := by
  refine ⟨?_, fun t2 signs => group_nearby_page_pointwise t2 signs, ?_, ?_,
    rfl, rfl, rfl, rfl, rfl, rfl⟩
  · unfold seedJoined
    rw [if_pos hseries, List.mem_filter, List.mem_range]
    have hlt : j < cores.length := by
      rcases List.get?_eq_some.mp hj with ⟨hlt, -⟩
      exact hlt
    constructor
    · rintro ⟨-, hp⟩
      rw [hj] at hp
      simp only [Bool.and_eq_true, decide_eq_true_eq, closePair] at hp
      obtain ⟨⟨hne, hnu⟩, hsw, hcp⟩ := hp
      exact ⟨hne, hnu, hsw, hcp⟩
    · rintro ⟨hne, hnu, hsw, hcp⟩
      refine ⟨hlt, ?_⟩
      rw [hj]
      simp only [Bool.and_eq_true, decide_eq_true_eq, closePair]
      exact ⟨⟨hne, hnu⟩, hsw, hcp⟩
  · have hq1 : (decide (|(10 : ℚ) - 10| < 2)) = true :=
      decide_eq_true (by norm_num)
    have hq2 : (decide (|(20 : ℚ) - 43 / 2| < 2 * 3)) = true :=
      decide_eq_true (by rw [abs_sub_lt_iff]; norm_num)
    simp +decide [group_nearby_page, groupStep, seedJoined, closePair, baseOf,
      splitOnChar, annotateAll, annotateFrom, setGroup, core, groupLabel,
      List.range_succ, seriesSignA, seriesSignB, loneSign, hq1, hq2]
  · have hq1 : (decide (|(10 : ℚ) - 10| < 2)) = true :=
      decide_eq_true (by norm_num)
    have hq2 : (decide (|(20 : ℚ) - 43 / 2| < 2 * 3)) = true :=
      decide_eq_true (by rw [abs_sub_lt_iff]; norm_num)
    simp +decide [group_nearby_page, groupStep, seedJoined, closePair, baseOf,
      splitOnChar, annotateAll, annotateFrom, setGroup, core, groupLabel,
      List.range_succ, seriesSignA, seriesSignB, hq1, hq2]

/-- C8 witness: the membership characterization applied to the two
concrete series cores. -/
theorem c8_witness :
    1 ∈ seedJoined 2 ([seriesSignA, seriesSignB].map core) [0] 0
        (core seriesSignA) ↔
      (1 ≠ 0 ∧ 1 ∉ ([0] : List ℕ) ∧
       pyStartsWith (core seriesSignB).num
         (baseOf (core seriesSignA).num ++ ".") = true ∧
       ((|(core seriesSignA).gx - (core seriesSignB).gx| < 2 ∧
         |(core seriesSignA).gy - (core seriesSignB).gy| < 2 * 3) ∨
        (|(core seriesSignA).gy - (core seriesSignB).gy| < 2 ∧
         |(core seriesSignA).gx - (core seriesSignB).gx| < 2 * 3))) :=
  (c8_series_grouping 2 ([seriesSignA, seriesSignB].map core) [0] 0 1
    (core seriesSignA) (core seriesSignB) rfl (by decide)).1

end SignOcr
